import Mathlib

/-!
# Kernel generator for FFT (`vexcl/backend/opencl/fft/kernels.hpp`)

A shallow embedding of the host side of the generator (launch geometry, kernel arguments)
and of the device kernels it emits (what one work-item reads and writes).

Conventions of the embedding.

* A complex sample `real2_t` is a pair over a scalar type `R`.  The definitions are generic
  in `R`, so that they run on `ℚ` or `ℤ`; the theorems about rotations take `R = ℝ` with the
  real cosine and sine, which is the reading "over the reals" of the floating-point source.
* A device buffer is a function `Nat → V`; a work-item is described by the list of input
  indices it reads and the list of `(index, value)` pairs it stores (`Access`).  Running a
  kernel commits the stores of every work-item of the launch grid, one after the other.
* The scalar arguments of a kernel are `cl_uint`s.  The host casts `static_cast<cl_uint>` are
  kept in `kernel_call.args`; the kernel models take the argument values themselves.
* `size_t` index arithmetic is written in `Nat`.  The one place where the source widens on
  purpose, `(ulong)x * x` in `bluestein_twiddle`, carries its reduction modulo `2 ^ 64`.
* A product of an emitted integer literal and a `cl_uint` argument, as in `x[l * threads]` and
  `y[l * p]` of the kernel `radix`, is a 32-bit unsigned product and carries its reduction
  modulo `2 ^ 32` (`literal_mul_uint`).
* Device queries (preferred work-group multiple, local memory size, maximal work-group size)
  and `sizeof(T)` are parameters.
-/

namespace vex
namespace fft

/-! ## Data model -/

/-- The complex sample type `real2_t` (`float2` or `double2`): real part `x`, imaginary part `y`. -/
structure real2_t (R : Type) where
  x : R
  y : R
deriving DecidableEq, Repr

/-- The record `struct pow`: `value = base ^ exponent` stored as components.  The source fills
`value` through a floating-point `std::pow`; here it is a field of its own. -/
structure pow where
  base : Nat
  exponent : Nat
  value : Nat
deriving DecidableEq, Repr

/-- The record `struct kernel_call`, without the compiled program and the description string.
`global` and `local_` are the two `cl::NDRange`s, one extent per axis (`cl::NullRange` is `[]`);
`args` are the `cl_uint` scalars bound with `kernel.setArg`, in positional order. -/
structure kernel_call where
  once : Bool
  count : Nat
  global : List Nat
  local_ : List Nat
  args : List Nat
deriving DecidableEq, Repr

/-- The scalar functions and constants the generated source takes from the math library:
`boost::math::constants::pi`, and the cosine and sine behind `sincos`, `native_cos`,
`native_sin`, `__sincosf`. -/
structure math_fns (R : Type) where
  pi : R
  cos : R → R
  sin : R → R

/-- The memory traffic of one work-item: indices read from the input buffer and the stores
`(index, value)` it performs, in program order. -/
structure Access (V : Type) where
  reads : List Nat
  writes : List (Nat × V)

/-- Commit a sequence of stores to a buffer, first store first. -/
def commit {V : Type} (mem : Nat → V) (ws : List (Nat × V)) : Nat → V :=
  ws.foldl (fun m w => Function.update m w.1 w.2) mem

/-- The value of `static_cast<cl_uint>`. -/
def to_cl_uint (v : Nat) : Nat := v % 2 ^ 32

/-! ## Shared primitives -/

/-- Modelled from the spec: `alignup` is called by the launch code but declared outside the
source files at hand.  The spec says that it returns the smallest multiple of `a` that is at
least `x`; it is modelled by the customary round-up expression `(x + a - 1) / a * a`. -/
def alignup (x a : Nat) : Nat := (x + a - 1) / a * a

/-- The function `mul` emitted by `mul_code`: the product of `a` and `b`, with `b` conjugated
when the source is generated with `invert`. -/
def mul {R : Type} [Ring R] (invert : Bool) (a b : real2_t R) : real2_t R :=
  if invert then
    ⟨a.x * b.x + a.y * b.y, a.y * b.x - a.x * b.y⟩
  else
    ⟨a.x * b.x - a.y * b.y, a.y * b.x + a.x * b.y⟩

/-- The function `twiddle` emitted by `twiddle_code`: all four variants return `{cos, sin}`
of `alpha`. -/
def twiddle {R : Type} (M : math_fns R) (alpha : R) : real2_t R :=
  ⟨M.cos alpha, M.sin alpha⟩

/-- The function `conj` emitted by `bluestein_pad_kernel`. -/
def conj {R : Type} [Neg R] (v : real2_t R) : real2_t R :=
  ⟨v.x, -v.y⟩

/-! ## Radix stage -/

/-- The product `l * v` of an emitted decimal literal `l` and a `cl_uint` value `v`, as in
`x[l * threads]` and `y[l * p]`.  A literal below `2 ^ 31` has type `int`, so the product with
the `uint` operand is a 32-bit unsigned product, reduced modulo `2 ^ 32`.  A literal from
`2 ^ 31` on has the 64-bit type `long`; the product is then a 64-bit one and is kept exact. -/
def literal_mul_uint (l v : Nat) : Nat :=
  if l < 2 ^ 31 then l * v % 2 ^ 32 else l * v

/-- The host constant `alpha = -two_pi * i / radix.value` of the twiddle loop. -/
def radix_alpha {R : Type} [Field R] (M : math_fns R) (radix : pow) (l : Nat) : R :=
  -(2 * M.pi) * (l : R) / (radix.value : R)

/-- The read block of `kernel_radix`: `v_l = x[l * threads]` after `x += i + batch_offset`. -/
def radix_load {V : Type} (radix : pow) (x : Nat → V) (threads x_off : Nat) :
    Fin radix.value → V :=
  fun l => x (x_off + literal_mul_uint l.val threads)

/-- The twiddle block of `kernel_radix`: under `if(p != 1)` the statement emitted for each
`l` from `1` to `radix.value - 1` is `v_l = mul(v_l, twiddle(alpha_l * k / p))`. -/
def radix_twiddle {R : Type} [Field R] (M : math_fns R) (radix : pow) (invert : Bool)
    (p k : Nat) (v : Fin radix.value → real2_t R) : Fin radix.value → real2_t R :=
  if p ≠ 1 then
    fun l =>
      if 1 ≤ l.val then
        mul invert (v l) (twiddle M (radix_alpha M radix l.val * (k : R) / (p : R)))
      else v l
  else v

/-- The kernel `radix` emitted by `kernel_radix`, for the work-item with global ids
`(gid0, gid1)`.  The unrolled small transform `dftN` comes from `in_place_dft`, which is
declared outside the source files at hand and is a parameter here. -/
def kernel_radix {R : Type} [Field R] (M : math_fns R)
    (in_place_dft : (N : Nat) → Bool → (Fin N → real2_t R) → Fin N → real2_t R)
    (radix : pow) (invert : Bool) (x : Nat → real2_t R) (p threads : Nat)
    (gid0 gid1 : Nat) : Access (real2_t R) :=
  let i := gid0
  if i ≥ threads then ⟨[], []⟩
  else
    let k := i % p
    let batch_offset := gid1 * threads * radix.value
    let x_off := i + batch_offset
    let v := radix_load radix x threads x_off
    let v := radix_twiddle M radix invert p k v
    let v := in_place_dft radix.value invert v
    let j := k + (i - k) * radix.value
    let y_off := j + batch_offset
    ⟨(List.finRange radix.value).map (fun l => x_off + literal_mul_uint l.val threads),
     (List.finRange radix.value).map (fun l => (y_off + literal_mul_uint l.val p, v l))⟩

/-- The write offset of `kernel_radix` inside a batch, for work-item `i` and result `l`:
`k = i % p`, `j = k + (i - k) * radix.value`, store to `y[l * p]` after `y += j`, the
product `l * p` being the 32-bit one. -/
def radix_write_offset (radix : pow) (p i l : Nat) : Nat :=
  i % p + (i - i % p) * radix.value + literal_mul_uint l p

/-- The host function `radix_kernel`: kernel arguments `p` and `m = n / radix.value`, and the
launch `NDRange(threads, batch)` with work-groups `NDRange(wg, 1)`; `wg_mul` is the preferred
work-group size multiple reported for the kernel. -/
def radix_kernel (once : Bool) (wg_mul n batch : Nat) (radix : pow) (p : Nat) : kernel_call :=
  let m := n / radix.value
  let wg := wg_mul
  let threads := alignup m wg
  { once := once, count := 0, global := [threads, batch], local_ := [wg, 1],
    args := [to_cl_uint p, to_cl_uint m] }

/-- Run the kernel `radix` over the grid `global_0 × global_1`, committing to `y`. -/
def radix_run {R : Type} [Field R] (M : math_fns R)
    (in_place_dft : (N : Nat) → Bool → (Fin N → real2_t R) → Fin N → real2_t R)
    (radix : pow) (invert : Bool) (x y : Nat → real2_t R) (p threads : Nat)
    (global_0 global_1 : Nat) : Nat → real2_t R :=
  commit y ((List.range global_1).flatMap fun gid1 =>
    (List.range global_0).flatMap fun gid0 =>
      (kernel_radix M in_place_dft radix invert x p threads gid0 gid1).writes)

/-! ## Transpose -/

/-- First loop of the block-size search in `transpose_kernel`:
`while(block_size * block_size * sizeof(T) * 2 > local_size) block_size /= 2`. -/
def shrink_to_local_mem (sizeof_T local_size block_size : Nat) : Nat :=
  if block_size * block_size * sizeof_T * 2 > local_size then
    shrink_to_local_mem sizeof_T local_size (block_size / 2)
  else block_size
termination_by block_size
decreasing_by
  rename_i h
  rcases Nat.eq_zero_or_pos block_size with h0 | h0
  · subst h0; simp at h
  · exact Nat.div_lt_self h0 (by decide)

/-- Second loop of the block-size search in `transpose_kernel`:
`while(block_size * block_size > workgroup) block_size /= 2`. -/
def shrink_to_workgroup (workgroup block_size : Nat) : Nat :=
  if block_size * block_size > workgroup then
    shrink_to_workgroup workgroup (block_size / 2)
  else block_size
termination_by block_size
decreasing_by
  rename_i h
  rcases Nat.eq_zero_or_pos block_size with h0 | h0
  · subst h0; simp at h
  · exact Nat.div_lt_self h0 (by decide)

/-- The block size chosen by `transpose_kernel`, starting from 128. -/
def transpose_block_size (sizeof_T local_size workgroup : Nat) : Nat :=
  shrink_to_workgroup workgroup (shrink_to_local_mem sizeof_T local_size 128)

/-- The ids of a work-item of a two-dimensional launch with square work-groups. -/
structure work_item where
  global_x : Nat
  global_y : Nat
  local_x : Nat
  local_y : Nat
  group_x : Nat
  group_y : Nat
deriving DecidableEq, Repr

/-- The work-item with local ids `(lx, ly)` of the work-group `(gx, gy)`, for work-groups of
`bs × bs` items and no global offset. -/
def work_item.of (bs gx gy lx ly : Nat) : work_item :=
  { global_x := gx * bs + lx, global_y := gy * bs + ly,
    local_x := lx, local_y := ly, group_x := gx, group_y := gy }

/-- The work-items of the work-group `(gx, gy)`. -/
def work_group (bs gx gy : Nat) : List work_item :=
  (List.range bs).flatMap fun ly => (List.range bs).map fun lx => work_item.of bs gx gy lx ly

/-- The kernel `transpose` before the barrier: `if(range) block[local_x + local_y * block_size]
= input[global_x + global_y * width]`.  The stores go to the local array `block`. -/
def transpose_load {V : Type} (block_size : Nat) (input : Nat → V) (width height : Nat)
    (t : work_item) : Access V :=
  let range : Bool := t.global_x < width && t.global_y < height
  if range then
    ⟨[t.global_x + t.global_y * width],
     [(t.local_x + t.local_y * block_size, input (t.global_x + t.global_y * width))]⟩
  else ⟨[], []⟩

/-- The kernel `transpose` after the barrier: `if(range) output[target_x + target_y * height]
= block[local_x + local_y * block_size]`.  No global read; the stores go to `output`. -/
def transpose_store {V : Type} (block_size : Nat) (block : Nat → V) (width height : Nat)
    (t : work_item) : Access V :=
  let target_x := t.local_y + t.group_y * block_size
  let target_y := t.local_x + t.group_x * block_size
  let range : Bool := t.global_x < width && t.global_y < height
  if range then
    ⟨[], [(target_x + target_y * height, block (t.local_x + t.local_y * block_size))]⟩
  else ⟨[], []⟩

/-- One work-group of the kernel `transpose`: every item runs up to the barrier, filling the
group's local array (whose initial content is `block0`), then every item runs the rest.  The
result is the list of stores to `output`. -/
def transpose_group {V : Type} (block_size : Nat) (input : Nat → V) (width height : Nat)
    (block0 : Nat → V) (gx gy : Nat) : List (Nat × V) :=
  let items := work_group block_size gx gy
  let block := commit block0 (items.flatMap fun t =>
    (transpose_load block_size input width height t).writes)
  items.flatMap fun t => (transpose_store block_size block width height t).writes

/-- Run the kernel `transpose` over the grid `global_0 × global_1` with work-groups of
`block_size × block_size` items; `block0 gx gy` is the initial content of the local array of
the work-group `(gx, gy)`. -/
def transpose_run {V : Type} (block_size : Nat) (input output : Nat → V) (width height : Nat)
    (block0 : Nat → Nat → Nat → V) (global_0 global_1 : Nat) : Nat → V :=
  commit output ((List.range (global_1 / block_size)).flatMap fun gy =>
    (List.range (global_0 / block_size)).flatMap fun gx =>
      transpose_group block_size input width height (block0 gx gy) gx gy)

/-- The host function `transpose_kernel`: kernel arguments `width`, `height` and the launch
`NDRange(r_w, r_h)` with work-groups `NDRange(block_size, block_size)`. -/
def transpose_kernel (sizeof_T local_size workgroup width height : Nat) : kernel_call :=
  let block_size := transpose_block_size sizeof_T local_size workgroup
  let r_w := alignup width block_size
  let r_h := alignup height block_size
  { once := false, count := 0, global := [r_w, r_h], local_ := [block_size, block_size],
    args := [to_cl_uint width, to_cl_uint height] }

/-- The direct transpose the tiled kernel is compared with: for every `x < width` and
`y < height`, `output[y + x * height] = input[x + y * width]`. -/
def transpose_direct {V : Type} (input output : Nat → V) (width height : Nat) : Nat → V :=
  commit output ((List.range width).flatMap fun x =>
    (List.range height).map fun y => (y + x * height, input (x + y * width)))

/-! ## Bluestein -/

/-- The index reduction of the kernel `bluestein_twiddle`:
`xx = ((ulong)x * x) % (2 * n)`.  The product is taken in `ulong`, hence modulo `2 ^ 64`.
The divisor `2 * n` doubles the launch size `n`, which counts the elements of the output
buffer; it is kept exact. -/
def bluestein_twiddle_xx (n x : Nat) : Nat :=
  (x * x % 2 ^ 64) % (2 * n)

/-- The host constant of `bluestein_twiddle`: `(inverse ? 1 : -1) * pi`. -/
def bluestein_sign_pi {R : Type} [Field R] (M : math_fns R) (inverse : Bool) : R :=
  (if inverse then 1 else -1) * M.pi

/-- The kernel `bluestein_twiddle` for the work-item `gid` of a launch of `gsize` items:
`output[x] = twiddle(sign_pi * xx / n)`. -/
def bluestein_twiddle_item {R : Type} [Field R] (M : math_fns R) (inverse : Bool)
    (gid gsize : Nat) : Access (real2_t R) :=
  let x := gid
  let n := gsize
  let xx := bluestein_twiddle_xx n x
  ⟨[], [(x, twiddle M (bluestein_sign_pi M inverse * (xx : R) / (n : R)))]⟩

/-- The host function `bluestein_twiddle`: no scalar argument, launch `NDRange(n)`. -/
def bluestein_twiddle (n : Nat) : kernel_call :=
  { once := true, count := 0, global := [n], local_ := [], args := [] }

/-- The table formula of `bluestein_twiddle` read at an integer index, with exact
arithmetic: `chirp(x) = twiddle(sign_pi * (x * x mod 2 n) / n)`. -/
def chirp {R : Type} [Field R] (M : math_fns R) (inverse : Bool) (n : Nat) (x : Int) :
    real2_t R :=
  twiddle M (bluestein_sign_pi M inverse * ((x * x % (2 * (n : Int)) : Int) : R) / (n : R))

/-- The kernel `bluestein_pad_kernel` for the work-item `gid`:
`if(x < n || m - x < n) output[x] = conj(input[min(x, m - x)]); else output[x] = {0,0}`.
On the launch grid `NDRange(m)` one has `x < m`, where the `size_t` difference `m - x` is the
natural one. -/
def bluestein_pad_item {R : Type} [Neg R] [Zero R] (input : Nat → real2_t R) (n m : Nat)
    (gid : Nat) : Access (real2_t R) :=
  let x := gid
  if x < n ∨ m - x < n then
    ⟨[min x (m - x)], [(x, conj (input (min x (m - x))))]⟩
  else
    ⟨[], [(x, ⟨0, 0⟩)]⟩

/-- The host function `bluestein_pad_kernel`: arguments `n`, `m`, launch `NDRange(m)`. -/
def bluestein_pad_kernel (n m : Nat) : kernel_call :=
  { once := true, count := 0, global := [m], local_ := [], args := [to_cl_uint n, to_cl_uint m] }

/-- Run `bluestein_pad_kernel` over its grid `NDRange(m)`, committing to `output`. -/
def bluestein_pad_run {R : Type} [Neg R] [Zero R] (input output : Nat → real2_t R)
    (n m : Nat) : Nat → real2_t R :=
  commit output ((List.range m).flatMap fun gid => (bluestein_pad_item input n m gid).writes)

/-- The host function `bluestein_mul_in`: arguments `radix`, `p`, `stride`, launch
`NDRange(threads, batch, stride_pad)` with work-groups `NDRange(1, 1, wg)`. -/
def bluestein_mul_in (wg batch radix p threads stride : Nat) : kernel_call :=
  let stride_pad := alignup stride wg
  { once := false, count := 0, global := [threads, batch, stride_pad], local_ := [1, 1, wg],
    args := [to_cl_uint radix, to_cl_uint p, to_cl_uint stride] }

/-- The host function `bluestein_mul_out`: `cl_uint` arguments `p`, `stride`, `radix`, launch
`NDRange(threads, batch, radix_pad)` with work-groups `NDRange(1, 1, wg)`. -/
def bluestein_mul_out (wg batch p radix threads stride : Nat) : kernel_call :=
  let radix_pad := alignup radix wg
  { once := false, count := 0, global := [threads, batch, radix_pad], local_ := [1, 1, wg],
    args := [to_cl_uint p, to_cl_uint stride, to_cl_uint radix] }

/-- The host function `bluestein_mul`: argument `n`, launch `NDRange(threads, batch)` with
work-groups `NDRange(wg, 1)`. -/
def bluestein_mul (wg n batch : Nat) : kernel_call :=
  let threads := alignup n wg
  { once := false, count := 0, global := [threads, batch], local_ := [wg, 1],
    args := [to_cl_uint n] }

/-! ## Predicates used by the statements -/

/-- The launch-geometry invariant: on every axis the global extent is a multiple of the local
extent and is at least the logical extent `logical` of that axis. -/
def geometry_ok (k : kernel_call) (logical : List Nat) : Prop :=
  List.Forall₂ (fun l g => l ∣ g) k.local_ k.global ∧
    List.Forall₂ (fun e g => e ≤ g) logical k.global

/-- A sample as a complex number. -/
def to_complex (a : real2_t ℝ) : ℂ := ⟨a.x, a.y⟩

/-! ## Auxiliary facts -/

theorem alignup_dvd (x a : Nat) : a ∣ alignup x a :=
  Dvd.intro_left _ rfl

theorem alignup_ge (x a : Nat) (ha : 1 ≤ a) : x ≤ alignup x a := by
  unfold alignup
  have h := Nat.div_add_mod (x + a - 1) a
  have hr := Nat.mod_lt (x + a - 1) (show 0 < a from ha)
  rw [Nat.mul_comm] at h
  generalize (x + a - 1) / a * a = t at h
  generalize (x + a - 1) % a = r at h hr
  omega

theorem alignup_lt (x a : Nat) (ha : 1 ≤ a) : alignup x a < x + a := by
  unfold alignup
  have h := Nat.div_mul_le_self (x + a - 1) a
  omega

theorem alignup_le_of_multiple (x a m : Nat) (ha : 1 ≤ a) (hm : a ∣ m) (hx : x ≤ m) :
    alignup x a ≤ m := by
  obtain ⟨c, rfl⟩ := hm
  unfold alignup
  have hq : (x + a - 1) / a ≤ c := by
    apply Nat.le_of_lt_succ
    rw [Nat.div_lt_iff_lt_mul (show 0 < a from ha), Nat.succ_mul, Nat.mul_comm c a]
    omega
  calc (x + a - 1) / a * a ≤ c * a := Nat.mul_le_mul_right a hq
    _ = a * c := Nat.mul_comm c a

theorem literal_mul_uint_of_lt (l v : Nat) (h : l * v < 2 ^ 32) :
    literal_mul_uint l v = l * v := by
  unfold literal_mul_uint
  split
  · exact Nat.mod_eq_of_lt h
  · rfl

theorem literal_mul_uint_one (l : Nat) : literal_mul_uint l 1 = l := by
  unfold literal_mul_uint
  split
  · next h => rw [Nat.mul_one]; exact Nat.mod_eq_of_lt (by omega)
  · exact Nat.mul_one l

/-- No product wraps when the largest one, `(N - 1) * v`, is below `2 ^ 32`. -/
theorem literal_mul_uint_of_bound (N v l : Nat) (hb : (N - 1) * v < 2 ^ 32) (hl : l < N) :
    literal_mul_uint l v = l * v :=
  literal_mul_uint_of_lt l v
    (Nat.lt_of_le_of_lt (Nat.mul_le_mul_right v (by omega)) hb)

/-! ## Rounding up to a multiple -/

/-- C2: for every `x` and `a ≥ 1`, `alignup x a` is the smallest multiple of `a` that is at
least `x`, and `alignup x a < x + a`. -/
theorem alignup_smallest_multiple (x a : Nat) (ha : 1 ≤ a) :
    IsLeast {m : Nat | a ∣ m ∧ x ≤ m} (alignup x a) ∧ alignup x a < x + a :=
  ⟨⟨⟨alignup_dvd x a, alignup_ge x a ha⟩,
      fun m hm => alignup_le_of_multiple x a m ha hm.1 hm.2⟩,
    alignup_lt x a ha⟩

theorem alignup_smallest_multiple_witness :
    1 ≤ 4 ∧
    (IsLeast {m : Nat | 4 ∣ m ∧ 10 ≤ m} (alignup 10 4) ∧ alignup 10 4 < 10 + 4) :=
  ⟨by decide, alignup_smallest_multiple 10 4 (by decide)⟩

/-! ## Launch geometry -/

/-- C3: with a work-group multiple `wg ≥ 1` (a block size `≥ 1` for the transpose), the launch
geometry returned by `radix_kernel`, `transpose_kernel`, `bluestein_mul_in`,
`bluestein_mul_out` and `bluestein_mul` has on every axis a global extent that is a multiple
of the local extent and at least the logical extent of the axis. -/
theorem launch_geometry_aligned (wg : Nat) (hwg : 1 ≤ wg)
    (sizeof_T local_size workgroup : Nat)
    (hbs : 1 ≤ transpose_block_size sizeof_T local_size workgroup) :
    (∀ (once : Bool) (n batch : Nat) (radix : pow) (p : Nat),
      geometry_ok (radix_kernel once wg n batch radix p) [n / radix.value, batch]) ∧
    (∀ width height : Nat,
      geometry_ok (transpose_kernel sizeof_T local_size workgroup width height)
        [width, height]) ∧
    (∀ batch radix p threads stride : Nat,
      geometry_ok (bluestein_mul_in wg batch radix p threads stride)
        [threads, batch, stride]) ∧
    (∀ batch p radix threads stride : Nat,
      geometry_ok (bluestein_mul_out wg batch p radix threads stride)
        [threads, batch, radix]) ∧
    (∀ n batch : Nat, geometry_ok (bluestein_mul wg n batch) [n, batch]) := by
  refine ⟨?_, ?_, ?_, ?_, ?_⟩
  · intro once n batch radix p
    simp [geometry_ok, radix_kernel, alignup_dvd, alignup_ge _ _ hwg]
  · intro width height
    simp [geometry_ok, transpose_kernel, alignup_dvd, alignup_ge _ _ hbs]
  · intro batch radix p threads stride
    simp [geometry_ok, bluestein_mul_in, alignup_dvd, alignup_ge _ _ hwg]
  · intro batch p radix threads stride
    simp [geometry_ok, bluestein_mul_out, alignup_dvd, alignup_ge _ _ hwg]
  · intro n batch
    simp [geometry_ok, bluestein_mul, alignup_dvd, alignup_ge _ _ hwg]

theorem launch_geometry_aligned_witness :
    1 ≤ 32 ∧ 1 ≤ transpose_block_size 4 32768 256 ∧
    ((∀ (once : Bool) (n batch : Nat) (radix : pow) (p : Nat),
      geometry_ok (radix_kernel once 32 n batch radix p) [n / radix.value, batch]) ∧
    (∀ width height : Nat,
      geometry_ok (transpose_kernel 4 32768 256 width height) [width, height]) ∧
    (∀ batch radix p threads stride : Nat,
      geometry_ok (bluestein_mul_in 32 batch radix p threads stride)
        [threads, batch, stride]) ∧
    (∀ batch p radix threads stride : Nat,
      geometry_ok (bluestein_mul_out 32 batch p radix threads stride)
        [threads, batch, radix]) ∧
    (∀ n batch : Nat, geometry_ok (bluestein_mul 32 n batch) [n, batch])) :=
  have h : 1 ≤ transpose_block_size 4 32768 256 := by
    simp [transpose_block_size, shrink_to_local_mem, shrink_to_workgroup]
  ⟨by decide, h, launch_geometry_aligned 32 (by decide) 4 32768 256 h⟩

/-! ## Committed stores -/

theorem commit_append {V : Type} (mem : Nat → V) (ws ws2 : List (Nat × V)) :
    commit mem (ws ++ ws2) = commit (commit mem ws) ws2 := by
  simp [commit, List.foldl_append]

theorem commit_of_not_mem {V : Type} (mem : Nat → V) (ws : List (Nat × V)) (k : Nat)
    (h : ∀ w ∈ ws, w.1 ≠ k) : commit mem ws k = mem k := by
  induction ws using List.reverseRecOn with
  | nil => rfl
  | append_singleton ws w ih =>
    have hw : k ≠ w.1 := fun e => h w (by simp) e.symm
    rw [commit_append]
    simp only [commit, List.foldl_cons, List.foldl_nil]
    rw [Function.update_noteq hw]
    exact ih (fun w2 h2 => h w2 (by simp [h2]))

theorem commit_of_mem {V : Type} (mem : Nat → V) (ws : List (Nat × V)) (k : Nat) (v : V)
    (hmem : (k, v) ∈ ws) (hfun : ∀ w ∈ ws, w.1 = k → w.2 = v) : commit mem ws k = v := by
  induction ws using List.reverseRecOn with
  | nil => simp at hmem
  | append_singleton ws w ih =>
    rw [commit_append]
    simp only [commit, List.foldl_cons, List.foldl_nil]
    by_cases hw : w.1 = k
    · rw [← hw, Function.update_same]
      exact hfun w (by simp) hw
    · rw [Function.update_noteq (fun e => hw e.symm)]
      apply ih
      · rcases List.mem_append.1 hmem with h1 | h1
        · exact h1
        · simp only [List.mem_singleton] at h1
          exact absurd (by rw [← h1]) hw
      · exact fun w2 h2 => hfun w2 (by simp [h2])

/-- Two store sequences with the same members, in which the index determines the value,
commit to the same buffer. -/
theorem commit_congr {V : Type} (mem : Nat → V) (ws ws2 : List (Nat × V))
    (hsame : ∀ w, w ∈ ws ↔ w ∈ ws2)
    (hfun : ∀ w ∈ ws, ∀ w2 ∈ ws, w.1 = w2.1 → w.2 = w2.2) :
    commit mem ws = commit mem ws2 := by
  funext k
  by_cases hk : ∃ w ∈ ws, w.1 = k
  · obtain ⟨w, hw, rfl⟩ := hk
    rw [commit_of_mem mem ws w.1 w.2 hw (fun w2 h2 e => hfun w2 h2 w hw e),
      commit_of_mem mem ws2 w.1 w.2 ((hsame w).1 hw)
        (fun w2 h2 e => hfun w2 ((hsame w2).2 h2) w hw e)]
  · have hk2 : ∀ w ∈ ws, w.1 ≠ k := fun w hw e => hk ⟨w, hw, e⟩
    rw [commit_of_not_mem mem ws k hk2,
      commit_of_not_mem mem ws2 k (fun w hw => hk2 w ((hsame w).2 hw))]

theorem pair_index_inj (b a a2 c c2 : Nat) (ha : a < b) (ha2 : a2 < b)
    (h : a + c * b = a2 + c2 * b) : a = a2 ∧ c = c2 := by
  have h1 : (a + c * b) % b = (a2 + c2 * b) % b := by rw [h]
  have h2 : (a + c * b) / b = (a2 + c2 * b) / b := by rw [h]
  have hb : 0 < b := by omega
  rw [Nat.add_mul_mod_self_right, Nat.add_mul_mod_self_right, Nat.mod_eq_of_lt ha,
    Nat.mod_eq_of_lt ha2] at h1
  rw [Nat.add_mul_div_right _ _ hb, Nat.add_mul_div_right _ _ hb, Nat.div_eq_of_lt ha,
    Nat.div_eq_of_lt ha2] at h2
  omega

theorem div_lt_alignup_div (x w bs : Nat) (hbs : 1 ≤ bs) (hx : x < w) :
    x / bs < alignup w bs / bs := by
  have hge := alignup_ge w bs hbs
  unfold alignup at hge ⊢
  rw [Nat.mul_div_cancel _ (show 0 < bs from hbs), Nat.div_lt_iff_lt_mul (show 0 < bs from hbs)]
  omega

/-! ## Transpose: the tiled kernel against the direct transpose -/

theorem mem_work_group (bs gx gy : Nat) (t : work_item) :
    t ∈ work_group bs gx gy ↔
      ∃ lx ly, lx < bs ∧ ly < bs ∧ t = work_item.of bs gx gy lx ly := by
  simp only [work_group, List.mem_flatMap, List.mem_map, List.mem_range]
  constructor
  · rintro ⟨ly, hly, lx, hlx, rfl⟩
    exact ⟨lx, ly, hlx, hly, rfl⟩
  · rintro ⟨lx, ly, hlx, hly, rfl⟩
    exact ⟨ly, hly, lx, hlx, rfl⟩

theorem transpose_load_writes {V : Type} (bs : Nat) (input : Nat → V) (width height : Nat)
    (t : work_item) :
    (transpose_load bs input width height t).writes =
      if t.global_x < width ∧ t.global_y < height then
        [(t.local_x + t.local_y * bs, input (t.global_x + t.global_y * width))]
      else [] := by
  unfold transpose_load
  by_cases h : t.global_x < width ∧ t.global_y < height
  · simp [h.1, h.2]
  · rw [if_neg h, if_neg (by simpa using h)]

theorem transpose_store_writes {V : Type} (bs : Nat) (block : Nat → V) (width height : Nat)
    (t : work_item) :
    (transpose_store bs block width height t).writes =
      if t.global_x < width ∧ t.global_y < height then
        [(t.local_y + t.group_y * bs + (t.local_x + t.group_x * bs) * height,
          block (t.local_x + t.local_y * bs))]
      else [] := by
  unfold transpose_store
  by_cases h : t.global_x < width ∧ t.global_y < height
  · simp [h.1, h.2]
  · rw [if_neg h, if_neg (by simpa using h)]

theorem mem_transpose_loads {V : Type} (bs : Nat) (input : Nat → V) (width height gx gy : Nat)
    (w : Nat × V) :
    (w ∈ (work_group bs gx gy).flatMap fun t =>
        (transpose_load bs input width height t).writes) ↔
      ∃ lx ly, lx < bs ∧ ly < bs ∧ gx * bs + lx < width ∧ gy * bs + ly < height ∧
        w = (lx + ly * bs, input (gx * bs + lx + (gy * bs + ly) * width)) := by
  simp only [List.mem_flatMap, mem_work_group, transpose_load_writes]
  constructor
  · rintro ⟨t, ⟨lx, ly, hlx, hly, rfl⟩, hw⟩
    simp only [work_item.of] at hw
    split at hw
    · next hr => exact ⟨lx, ly, hlx, hly, hr.1, hr.2, by simpa using hw⟩
    · simp at hw
  · rintro ⟨lx, ly, hlx, hly, h1, h2, rfl⟩
    exact ⟨work_item.of bs gx gy lx ly, ⟨lx, ly, hlx, hly, rfl⟩,
      by simp [work_item.of, h1, h2]⟩

theorem transpose_block_filled {V : Type} (bs : Nat) (input : Nat → V)
    (width height gx gy : Nat) (block0 : Nat → V) (lx ly : Nat) (hlx : lx < bs) (hly : ly < bs)
    (h1 : gx * bs + lx < width) (h2 : gy * bs + ly < height) :
    commit block0 ((work_group bs gx gy).flatMap fun t =>
        (transpose_load bs input width height t).writes) (lx + ly * bs) =
      input (gx * bs + lx + (gy * bs + ly) * width) := by
  apply commit_of_mem
  · rw [mem_transpose_loads]
    exact ⟨lx, ly, hlx, hly, h1, h2, rfl⟩
  · intro w hw hk
    rw [mem_transpose_loads] at hw
    obtain ⟨lx2, ly2, hlx2, _, _, _, rfl⟩ := hw
    obtain ⟨e1, e2⟩ := pair_index_inj bs lx2 lx ly2 ly hlx2 hlx hk
    subst e1 e2
    rfl

theorem mem_transpose_group {V : Type} (bs : Nat) (input : Nat → V) (width height : Nat)
    (block0 : Nat → V) (gx gy : Nat) (w : Nat × V) :
    w ∈ transpose_group bs input width height block0 gx gy ↔
      ∃ lx ly, lx < bs ∧ ly < bs ∧ gx * bs + lx < width ∧ gy * bs + ly < height ∧
        w = (gy * bs + ly + (gx * bs + lx) * height,
          input (gx * bs + lx + (gy * bs + ly) * width)) := by
  simp only [transpose_group, List.mem_flatMap, mem_work_group, transpose_store_writes]
  constructor
  · rintro ⟨t, ⟨lx, ly, hlx, hly, rfl⟩, hw⟩
    simp only [work_item.of] at hw
    split at hw
    · next hr =>
      refine ⟨lx, ly, hlx, hly, hr.1, hr.2, ?_⟩
      rw [transpose_block_filled bs input width height gx gy block0 lx ly hlx hly hr.1 hr.2]
        at hw
      simp only [List.mem_singleton] at hw
      rw [hw, Nat.add_comm ly, Nat.add_comm lx (gx * bs)]
    · simp at hw
  · rintro ⟨lx, ly, hlx, hly, h1, h2, rfl⟩
    refine ⟨work_item.of bs gx gy lx ly, ⟨lx, ly, hlx, hly, rfl⟩, ?_⟩
    simp only [work_item.of]
    rw [if_pos ⟨h1, h2⟩,
      transpose_block_filled bs input width height gx gy block0 lx ly hlx hly h1 h2]
    simp only [List.mem_singleton]
    rw [Nat.add_comm ly, Nat.add_comm lx (gx * bs)]

/-- The stores of the whole launch are exactly the stores of the direct transpose. -/
theorem mem_transpose_launch {V : Type} (bs : Nat) (hbs : 1 ≤ bs) (input : Nat → V)
    (width height : Nat) (block0 : Nat → Nat → Nat → V) (w : Nat × V) :
    (w ∈ (List.range (alignup height bs / bs)).flatMap fun gy =>
        (List.range (alignup width bs / bs)).flatMap fun gx =>
          transpose_group bs input width height (block0 gx gy) gx gy) ↔
      ∃ x y, x < width ∧ y < height ∧ w = (y + x * height, input (x + y * width)) := by
  simp only [List.mem_flatMap, List.mem_range, mem_transpose_group]
  constructor
  · rintro ⟨gy, _, gx, _, lx, ly, _, _, h1, h2, rfl⟩
    exact ⟨gx * bs + lx, gy * bs + ly, h1, h2, rfl⟩
  · rintro ⟨x, y, hx, hy, rfl⟩
    have ex : x / bs * bs + x % bs = x := by
      rw [Nat.mul_comm]; exact Nat.div_add_mod x bs
    have ey : y / bs * bs + y % bs = y := by
      rw [Nat.mul_comm]; exact Nat.div_add_mod y bs
    refine ⟨y / bs, div_lt_alignup_div y height bs hbs hy, x / bs,
      div_lt_alignup_div x width bs hbs hx, x % bs, y % bs,
      Nat.mod_lt _ hbs, Nat.mod_lt _ hbs, ?_, ?_, ?_⟩
    · rw [ex]; exact hx
    · rw [ey]; exact hy
    · rw [ex, ey]

theorem mem_transpose_direct {V : Type} (input : Nat → V) (width height : Nat) (w : Nat × V) :
    (w ∈ (List.range width).flatMap fun x =>
        (List.range height).map fun y => (y + x * height, input (x + y * width))) ↔
      ∃ x y, x < width ∧ y < height ∧ w = (y + x * height, input (x + y * width)) := by
  simp only [List.mem_flatMap, List.mem_map, List.mem_range]
  constructor
  · rintro ⟨x, hx, y, hy, rfl⟩
    exact ⟨x, y, hx, hy, rfl⟩
  · rintro ⟨x, y, hx, hy, rfl⟩
    exact ⟨x, hx, y, hy, rfl⟩

theorem transpose_direct_apply {V : Type} (input output : Nat → V) (width height x y : Nat)
    (hx : x < width) (hy : y < height) :
    transpose_direct input output width height (y + x * height) = input (x + y * width) := by
  apply commit_of_mem
  · rw [mem_transpose_direct]
    exact ⟨x, y, hx, hy, rfl⟩
  · intro w hw hk
    rw [mem_transpose_direct] at hw
    obtain ⟨x2, y2, _, hy2, rfl⟩ := hw
    obtain ⟨e1, e2⟩ := pair_index_inj height y2 y x2 x hy2 hy hk
    subst e1 e2
    rfl

/-- The launch made by `transpose_kernel` for sizes that fit `cl_uint`: the kernel receives
`width` and `height`, over the padded grid with square work-groups. -/
theorem transpose_kernel_launch (sizeof_T local_size workgroup width height : Nat)
    (hw : width < 2 ^ 32) (hh : height < 2 ^ 32) :
    transpose_kernel sizeof_T local_size workgroup width height =
      { once := false, count := 0,
        global := [alignup width (transpose_block_size sizeof_T local_size workgroup),
          alignup height (transpose_block_size sizeof_T local_size workgroup)],
        local_ := [transpose_block_size sizeof_T local_size workgroup,
          transpose_block_size sizeof_T local_size workgroup],
        args := [width, height] } := by
  simp only [transpose_kernel, to_cl_uint, Nat.mod_eq_of_lt hw, Nat.mod_eq_of_lt hh]

theorem transpose_run_eq_direct {V : Type} (bs : Nat) (hbs : 1 ≤ bs) (input output : Nat → V)
    (width height : Nat) (block0 : Nat → Nat → Nat → V) :
    transpose_run bs input output width height block0 (alignup width bs) (alignup height bs) =
      transpose_direct input output width height := by
  unfold transpose_run transpose_direct
  apply commit_congr
  · intro w
    rw [mem_transpose_launch bs hbs, mem_transpose_direct]
  · intro w hw w2 hw2 hk
    rw [mem_transpose_launch bs hbs] at hw hw2
    obtain ⟨x, y, _, hy, rfl⟩ := hw
    obtain ⟨x2, y2, _, hy2, rfl⟩ := hw2
    obtain ⟨e1, e2⟩ := pair_index_inj height y y2 x x2 hy hy2 hk
    subst e1 e2
    rfl

/-- C1: for every value of the kernel arguments `width` and `height` and every block size
`bs ≥ 1`, the kernel `transpose` run over the padded grid `alignup width bs × alignup height bs`
stores `output[y + x * height] = input[x + y * width]` for every `x < width` and `y < height`,
its result is the result of the direct transpose, and a work-item with `global_x ≥ width` or
`global_y ≥ height` neither reads `input` nor stores to the local array or to `output`. -/
theorem transpose_kernel_correct {V : Type} (width height bs : Nat) (hbs : 1 ≤ bs)
    (input output : Nat → V)
    (block0 : Nat → Nat → Nat → V) :
    (∀ x y, x < width → y < height →
      transpose_run bs input output width height block0 (alignup width bs)
        (alignup height bs) (y + x * height) = input (x + y * width)) ∧
    transpose_run bs input output width height block0 (alignup width bs) (alignup height bs) =
      transpose_direct input output width height ∧
    (∀ (t : work_item) (block : Nat → V), width ≤ t.global_x ∨ height ≤ t.global_y →
      transpose_load bs input width height t = ⟨[], []⟩ ∧
      transpose_store bs block width height t = ⟨[], []⟩) := by
  refine ⟨?_, transpose_run_eq_direct bs hbs input output width height block0, ?_⟩
  · intro x y hx hy
    rw [transpose_run_eq_direct bs hbs, transpose_direct_apply input output width height x y hx hy]
  · intro t block ht
    have hr : ¬ (t.global_x < width ∧ t.global_y < height) := by omega
    unfold transpose_load transpose_store
    constructor
    · simp only []
      rw [if_neg (by simpa using hr)]
    · simp only []
      rw [if_neg (by simpa using hr)]

theorem transpose_kernel_correct_witness :
    1 ≤ 2 ∧
    ((∀ x y, x < 3 → y < 5 →
      transpose_run 2 (fun i => 10 + i) (fun _ => 0) 3 5 (fun _ _ _ => 7) (alignup 3 2)
        (alignup 5 2) (y + x * 5) = 10 + (x + y * 3)) ∧
    transpose_run 2 (fun i => 10 + i) (fun _ => 0) 3 5 (fun _ _ _ => 7) (alignup 3 2)
        (alignup 5 2) =
      transpose_direct (fun i => 10 + i) (fun _ => 0) 3 5 ∧
    (∀ (t : work_item) (block : Nat → Nat), 3 ≤ t.global_x ∨ 5 ≤ t.global_y →
      transpose_load 2 (fun i => 10 + i) 3 5 t = ⟨[], []⟩ ∧
      transpose_store 2 block 3 5 t = ⟨[], []⟩)) :=
  ⟨by decide,
    transpose_kernel_correct 3 5 2 (by decide) (fun i => 10 + i) (fun _ => 0) (fun _ _ _ => 7)⟩

/-! ## Radix stage: base case -/

theorem kernel_radix_single {R : Type} [Field R] (M : math_fns R)
    (in_place_dft : (N : Nat) → Bool → (Fin N → real2_t R) → Fin N → real2_t R)
    (radix : pow) (invert : Bool) (x : Nat → real2_t R) (b : Nat) :
    kernel_radix M in_place_dft radix invert x 1 1 0 b =
      ⟨(List.finRange radix.value).map fun l => b * radix.value + l.val,
       (List.finRange radix.value).map fun l =>
        (b * radix.value + l.val,
          in_place_dft radix.value invert (fun l => x (b * radix.value + l.val)) l)⟩ := by
  have hload : radix_load radix x 1 (b * radix.value) =
      fun l => x (b * radix.value + l.val) := by
    funext l
    simp [radix_load, literal_mul_uint_one]
  simp [kernel_radix, radix_twiddle, hload, literal_mul_uint_one]

theorem kernel_radix_idle {R : Type} [Field R] (M : math_fns R)
    (in_place_dft : (N : Nat) → Bool → (Fin N → real2_t R) → Fin N → real2_t R)
    (radix : pow) (invert : Bool) (x : Nat → real2_t R) (p threads i b : Nat)
    (hi : threads ≤ i) :
    kernel_radix M in_place_dft radix invert x p threads i b = ⟨[], []⟩ := by
  simp [kernel_radix, hi]

theorem mem_radix_single_launch {R : Type} [Field R] (M : math_fns R)
    (in_place_dft : (N : Nat) → Bool → (Fin N → real2_t R) → Fin N → real2_t R)
    (radix : pow) (invert : Bool) (x : Nat → real2_t R) (global_0 global_1 : Nat)
    (hg : 1 ≤ global_0) (w : Nat × real2_t R) :
    (w ∈ (List.range global_1).flatMap fun gid1 =>
        (List.range global_0).flatMap fun gid0 =>
          (kernel_radix M in_place_dft radix invert x 1 1 gid0 gid1).writes) ↔
      ∃ b, b < global_1 ∧ ∃ l : Fin radix.value,
        w = (b * radix.value + l.val,
          in_place_dft radix.value invert (fun l => x (b * radix.value + l.val)) l) := by
  simp only [List.mem_flatMap, List.mem_range]
  constructor
  · rintro ⟨b, hb, i, _, hw⟩
    rcases Nat.eq_zero_or_pos i with h0 | h0
    · subst h0
      rw [kernel_radix_single] at hw
      simp only [List.mem_map] at hw
      obtain ⟨l, _, rfl⟩ := hw
      exact ⟨b, hb, l, rfl⟩
    · rw [kernel_radix_idle M in_place_dft radix invert x 1 1 i b h0] at hw
      simp at hw
  · rintro ⟨b, hb, l, rfl⟩
    refine ⟨b, hb, 0, hg, ?_⟩
    rw [kernel_radix_single]
    simp only [List.mem_map]
    exact ⟨l, List.mem_finRange l, rfl⟩

/-- C4: for every `N ≥ 1`, the kernel `radix` generated with `radix.value = N` and launched by
`radix_kernel` with `p = 1` and `n = N` receives `p = 1` and `threads = 1`, applies no twiddle
multiplication, and for every batch `b` its work-item `0` reads `x[b * N + l]` and stores to
`y[b * N + l]`, for `l < N` in order, the small transform `dftN` of these samples; the other
work-items do nothing, so the launch leaves `dftN` of each batch in `y`. -/
theorem radix_base_case {R : Type} [Field R] (M : math_fns R)
    (in_place_dft : (N : Nat) → Bool → (Fin N → real2_t R) → Fin N → real2_t R)
    (radix : pow) (hN : 1 ≤ radix.value) (invert : Bool) (x y : Nat → real2_t R) :
    (∀ (once : Bool) (wg batch : Nat),
      (radix_kernel once wg radix.value batch radix 1).args = [1, 1]) ∧
    (∀ (k : Nat) (v : Fin radix.value → real2_t R), radix_twiddle M radix invert 1 k v = v) ∧
    (∀ b : Nat, kernel_radix M in_place_dft radix invert x 1 1 0 b =
      ⟨(List.finRange radix.value).map fun l => b * radix.value + l.val,
       (List.finRange radix.value).map fun l =>
        (b * radix.value + l.val,
          in_place_dft radix.value invert (fun l => x (b * radix.value + l.val)) l)⟩) ∧
    (∀ i b : Nat, 1 ≤ i →
      kernel_radix M in_place_dft radix invert x 1 1 i b = ⟨[], []⟩) ∧
    (∀ (global_0 global_1 b : Nat) (l : Fin radix.value), 1 ≤ global_0 → b < global_1 →
      radix_run M in_place_dft radix invert x y 1 1 global_0 global_1
          (b * radix.value + l.val) =
        in_place_dft radix.value invert (fun l => x (b * radix.value + l.val)) l) := by
  refine ⟨?_, ?_, kernel_radix_single M in_place_dft radix invert x,
    fun i b hi => kernel_radix_idle M in_place_dft radix invert x 1 1 i b hi, ?_⟩
  · intro once wg batch
    simp [radix_kernel, to_cl_uint, Nat.div_self (show 0 < radix.value from hN)]
  · intro k v
    simp [radix_twiddle]
  · intro global_0 global_1 b l hg hb
    unfold radix_run
    apply commit_of_mem
    · rw [mem_radix_single_launch M in_place_dft radix invert x global_0 global_1 hg]
      exact ⟨b, hb, l, rfl⟩
    · intro w hw hk
      rw [mem_radix_single_launch M in_place_dft radix invert x global_0 global_1 hg] at hw
      obtain ⟨b2, _, l2, rfl⟩ := hw
      have hk2 : l2.val + b2 * radix.value = l.val + b * radix.value := by
        simp only at hk
        omega
      obtain ⟨e1, e2⟩ := pair_index_inj radix.value l2.val l.val b2 b l2.isLt l.isLt hk2
      have e3 : l2 = l := Fin.ext e1
      subst e2 e3
      rfl

theorem radix_base_case_witness :
    1 ≤ (pow.mk 2 1 2).value ∧
    radix_run (R := ℚ) ⟨3, fun a => a, fun a => a⟩ (fun _ _ v => v) ⟨2, 1, 2⟩ false
        (fun i => ⟨i, 0⟩) (fun _ => ⟨0, 0⟩) 1 1 32 3 (1 * 2 + 1) =
      (⟨((1 * 2 + 1 : Nat) : ℚ), 0⟩ : real2_t ℚ) :=
  ⟨by decide,
    (radix_base_case (R := ℚ) ⟨3, fun a => a, fun a => a⟩ (fun _ _ v => v) ⟨2, 1, 2⟩
      (by decide) false (fun i => ⟨i, 0⟩) (fun _ => ⟨0, 0⟩)).2.2.2.2
      32 3 1 ⟨1, by decide⟩ (by decide) (by decide)⟩

/-! ## Complex multiplication and twiddle factors -/

/-- C7: for all real pairs `a` and `b`, the generated `mul` returns the complex product
`a * b` when generated with `invert = false` and `a * conj b` when generated with
`invert = true`. -/
theorem mul_complex_product (a b : real2_t ℝ) :
    to_complex (mul false a b) = to_complex a * to_complex b ∧
    to_complex (mul true a b) = to_complex a * (starRingEnd ℂ) (to_complex b) := by
  constructor
  · apply Complex.ext
    · simp [mul, to_complex]
    · simp [mul, to_complex]
      ring
  · apply Complex.ext
    · simp [mul, to_complex]
    · simp [mul, to_complex]
      ring

theorem to_complex_mul_twiddle (invert : Bool) (a : real2_t ℝ) (s : ℝ) :
    to_complex (mul invert a (twiddle ⟨Real.pi, Real.cos, Real.sin⟩ s)) =
      to_complex a *
        ((Real.cos (if invert then -s else s) : ℂ) +
          (Real.sin (if invert then -s else s) : ℂ) * Complex.I) := by
  cases invert
  · apply Complex.ext
    · simp [mul, to_complex, twiddle, -Complex.ofReal_cos, -Complex.ofReal_sin]
    · simp [mul, to_complex, twiddle, -Complex.ofReal_cos, -Complex.ofReal_sin]
      ring
  · apply Complex.ext
    · simp [mul, to_complex, twiddle, -Complex.ofReal_cos, -Complex.ofReal_sin]
    · simp [mul, to_complex, twiddle, -Complex.ofReal_cos, -Complex.ofReal_sin]
      ring

theorem radix_twiddle_angle (radix : pow) (invert : Bool) (p k l : Nat) :
    (if invert then
        -(radix_alpha ⟨Real.pi, Real.cos, Real.sin⟩ radix l * (k : ℝ) / (p : ℝ))
      else radix_alpha ⟨Real.pi, Real.cos, Real.sin⟩ radix l * (k : ℝ) / (p : ℝ)) =
      (if invert then 1 else -1) * (2 * Real.pi * (l : ℝ) * (k : ℝ)) /
        ((radix.value : ℝ) * (p : ℝ)) := by
  cases invert
  · simp only [radix_alpha, Bool.false_eq_true, if_false]
    ring
  · simp only [radix_alpha, if_true]
    ring

theorem kernel_radix_writes {R : Type} [Field R] (M : math_fns R)
    (in_place_dft : (N : Nat) → Bool → (Fin N → real2_t R) → Fin N → real2_t R)
    (radix : pow) (invert : Bool) (x : Nat → real2_t R) (p threads i b : Nat)
    (hi : i < threads) :
    (kernel_radix M in_place_dft radix invert x p threads i b).writes =
      (List.finRange radix.value).map fun l =>
        (i % p + (i - i % p) * radix.value + b * threads * radix.value +
            literal_mul_uint l.val p,
          in_place_dft radix.value invert
            (radix_twiddle M radix invert p (i % p)
              (radix_load radix x threads (i + b * threads * radix.value))) l) := by
  simp [kernel_radix, Nat.not_le.2 hi]

/-- C5: in the kernel `radix` with `p ≠ 1`, for every work-item `i < threads` with
`k = i mod p`, the registers handed to `dftN` are the loaded samples after the twiddle block,
in which sample `l` with `1 ≤ l < radix.value` is multiplied, as a complex number over the
reals, by `cos t + i sin t` with `t = -2 π l k / (radix.value * p)` for a forward transform and
`t = +2 π l k / (radix.value * p)` for an inverse one; sample `0` is left as loaded.  In the
kernel run with `p = 1` the registers handed to `dftN` are the loaded samples themselves: no
sample is multiplied. -/
theorem radix_twiddle_correction (radix : pow) (invert : Bool) (x : Nat → real2_t ℝ)
    (p threads i b : Nat) (hp : p ≠ 1) (hi : i < threads) :
    (∀ in_place_dft : (N : Nat) → Bool → (Fin N → real2_t ℝ) → Fin N → real2_t ℝ,
      (kernel_radix ⟨Real.pi, Real.cos, Real.sin⟩ in_place_dft radix invert x p threads
          i b).writes =
        (List.finRange radix.value).map fun l =>
          (i % p + (i - i % p) * radix.value + b * threads * radix.value +
              literal_mul_uint l.val p,
            in_place_dft radix.value invert
              (radix_twiddle ⟨Real.pi, Real.cos, Real.sin⟩ radix invert p (i % p)
                (radix_load radix x threads (i + b * threads * radix.value))) l)) ∧
    (∀ (v : Fin radix.value → real2_t ℝ) (l : Fin radix.value), 1 ≤ l.val →
      to_complex (radix_twiddle ⟨Real.pi, Real.cos, Real.sin⟩ radix invert p (i % p) v l) =
        to_complex (v l) *
          ((Real.cos ((if invert then 1 else -1) *
                (2 * Real.pi * (l.val : ℝ) * ((i % p : Nat) : ℝ)) /
                  ((radix.value : ℝ) * (p : ℝ))) : ℂ) +
            (Real.sin ((if invert then 1 else -1) *
                (2 * Real.pi * (l.val : ℝ) * ((i % p : Nat) : ℝ)) /
                  ((radix.value : ℝ) * (p : ℝ))) : ℂ) * Complex.I)) ∧
    (∀ (v : Fin radix.value → real2_t ℝ) (l : Fin radix.value), l.val = 0 →
      radix_twiddle ⟨Real.pi, Real.cos, Real.sin⟩ radix invert p (i % p) v l = v l) ∧
    (∀ (in_place_dft : (N : Nat) → Bool → (Fin N → real2_t ℝ) → Fin N → real2_t ℝ)
        (x2 : Nat → real2_t ℝ) (threads2 i2 b2 : Nat), i2 < threads2 →
      (kernel_radix ⟨Real.pi, Real.cos, Real.sin⟩ in_place_dft radix invert x2 1 threads2
          i2 b2).writes =
        (List.finRange radix.value).map fun l =>
          (i2 % 1 + (i2 - i2 % 1) * radix.value + b2 * threads2 * radix.value +
              literal_mul_uint l.val 1,
            in_place_dft radix.value invert
              (radix_load radix x2 threads2 (i2 + b2 * threads2 * radix.value)) l)) := by
  refine ⟨?_, ?_, ?_, ?_⟩
  · intro in_place_dft
    exact kernel_radix_writes _ in_place_dft radix invert x p threads i b hi
  · intro v l hl
    unfold radix_twiddle
    rw [if_pos hp]
    simp only [if_pos hl]
    rw [to_complex_mul_twiddle, radix_twiddle_angle]
  · intro v l hl
    unfold radix_twiddle
    rw [if_pos hp]
    simp [hl]
  · intro in_place_dft x2 threads2 i2 b2 hi2
    rw [kernel_radix_writes _ in_place_dft radix invert x2 1 threads2 i2 b2 hi2]
    have hid : ∀ (k : Nat) (v : Fin radix.value → real2_t ℝ),
        radix_twiddle ⟨Real.pi, Real.cos, Real.sin⟩ radix invert 1 k v = v := by
      intro k v
      simp [radix_twiddle]
    simp only [hid]

theorem radix_twiddle_correction_witness :
    (2 : Nat) ≠ 1 ∧ 1 < 2 ∧
    ∀ (v : Fin (pow.mk 4 1 4).value → real2_t ℝ) (l : Fin (pow.mk 4 1 4).value), l.val = 0 →
      radix_twiddle ⟨Real.pi, Real.cos, Real.sin⟩ ⟨4, 1, 4⟩ false 2 (1 % 2) v l = v l :=
  ⟨by decide, by decide,
    (radix_twiddle_correction ⟨4, 1, 4⟩ false (fun _ => ⟨1, 0⟩) 2 2 1 0 (by decide)
      (by decide)).2.2.1⟩

/-! ## Radix stage: output scatter -/

/-- C6, as the code has it: every work-item `i < threads` of the kernel `radix`, with
`k = i mod p`, stores its `radix.value` results from `j = k + (i - k) * radix.value` (plus the
batch offset) on, with stride `p`: result `l` goes to position `j` plus the kernel's 32-bit
product `l * p`, which is `j + l * p` whenever `(radix.value - 1) * p < 2 ^ 32`. -/
theorem radix_scatter_positions {R : Type} [Field R] (M : math_fns R)
    (in_place_dft : (N : Nat) → Bool → (Fin N → real2_t R) → Fin N → real2_t R)
    (radix : pow) (invert : Bool) (x : Nat → real2_t R) (p threads i b : Nat)
    (hi : i < threads) :
    (kernel_radix M in_place_dft radix invert x p threads i b).writes.map Prod.fst =
      (List.range radix.value).map (fun l =>
        (i % p + (i - i % p) * radix.value) + b * threads * radix.value +
          literal_mul_uint l p) ∧
    ((radix.value - 1) * p < 2 ^ 32 →
      (kernel_radix M in_place_dft radix invert x p threads i b).writes.map Prod.fst =
        (List.range radix.value).map (fun l =>
          (i % p + (i - i % p) * radix.value) + b * threads * radix.value + l * p)) := by
  have h : (kernel_radix M in_place_dft radix invert x p threads i b).writes.map Prod.fst =
      (List.range radix.value).map (fun l =>
        (i % p + (i - i % p) * radix.value) + b * threads * radix.value +
          literal_mul_uint l p) := by
    rw [kernel_radix_writes M in_place_dft radix invert x p threads i b hi,
      ← List.map_coe_finRange, List.map_map, List.map_map]
    rfl
  refine ⟨h, fun hb => ?_⟩
  rw [h]
  apply List.map_congr_left
  intro l hl
  rw [literal_mul_uint_of_bound radix.value p l hb (List.mem_range.1 hl)]

theorem radix_scatter_positions_witness :
    3 < 4 ∧ ((pow.mk 2 1 2).value - 1) * 2 < 2 ^ 32 ∧
    (kernel_radix (R := ℚ) ⟨3, fun a => a, fun a => a⟩ (fun _ _ v => v) ⟨2, 1, 2⟩ false
        (fun i => ⟨i, 0⟩) 2 4 3 0).writes.map Prod.fst =
      (List.range (pow.mk 2 1 2).value).map (fun l =>
        (3 % 2 + (3 - 3 % 2) * (pow.mk 2 1 2).value) + 0 * 4 * (pow.mk 2 1 2).value + l * 2) :=
  ⟨by decide, by decide,
    (radix_scatter_positions (R := ℚ) ⟨3, fun a => a, fun a => a⟩ (fun _ _ v => v)
      ⟨2, 1, 2⟩ false (fun i => ⟨i, 0⟩) 2 4 3 0 (by decide)).2 (by decide)⟩

/-- C6, as stated, fails: with `radix.value = 2`, `p = 2`, `threads = 4`, the work-item `i = 3`
(`k = 1`, `j = 5`) stores to positions `5` and `7`, not to `5` and `5 + 1 * (2 * 2) = 9`. -/
theorem radix_scatter_stride_counterexample :
    (kernel_radix (R := ℚ) ⟨3, fun a => a, fun a => a⟩ (fun _ _ v => v) ⟨2, 1, 2⟩ false
        (fun i => ⟨i, 0⟩) 2 4 3 0).writes.map Prod.fst = [5, 7] ∧
    (kernel_radix (R := ℚ) ⟨3, fun a => a, fun a => a⟩ (fun _ _ v => v) ⟨2, 1, 2⟩ false
        (fun i => ⟨i, 0⟩) 2 4 3 0).writes.map Prod.fst ≠
      (List.range 2).map fun l => (3 % 2 + (3 - 3 % 2) * 2) + 0 * 4 * 2 + l * (2 * 2) := by
  have h : (kernel_radix (R := ℚ) ⟨3, fun a => a, fun a => a⟩ (fun _ _ v => v) ⟨2, 1, 2⟩
      false (fun i => ⟨i, 0⟩) 2 4 3 0).writes.map Prod.fst = [5, 7] := by
    rw [kernel_radix_writes _ _ _ _ _ _ _ _ _ (by decide), List.map_map]
    decide
  refine ⟨h, ?_⟩
  rw [h]
  decide

/-! ## Bluestein: chirp table -/

theorem cos_sin_add_turns (a : ℝ) (q : Int) :
    Real.cos (a + (q : ℝ) * (2 * Real.pi)) = Real.cos a ∧
    Real.sin (a + (q : ℝ) * (2 * Real.pi)) = Real.sin a :=
  ⟨Real.cos_add_int_mul_two_pi a q, Real.sin_add_int_mul_two_pi a q⟩

theorem chirp_angle_split (c : ℝ) (n x : Nat) (hn : 1 ≤ n) :
    c * Real.pi * (((x * x : Nat) : ℝ)) / (n : ℝ) =
      c * Real.pi * (((x * x % (2 * n) : Nat) : ℝ)) / (n : ℝ) +
        c * ((x * x / (2 * n) : Nat) : ℝ) * (2 * Real.pi) := by
  have hn0 : (n : ℝ) ≠ 0 := by
    have : 0 < n := hn
    exact_mod_cast this.ne'
  have hsplit : ((x * x : Nat) : ℝ) =
      2 * (n : ℝ) * ((x * x / (2 * n) : Nat) : ℝ) + ((x * x % (2 * n) : Nat) : ℝ) := by
    have h := Nat.div_add_mod (x * x) (2 * n)
    exact_mod_cast h.symm
  rw [hsplit]
  field_simp
  ring

/-- C8: for every `n ≥ 1` and every index `x < 2 ^ 32`, the 64-bit product in the kernel
`bluestein_twiddle` does not overflow, `xx` is `x * x mod 2 n`, the work-item stores
`output[x] = (cos t, sin t)` with `t = sign * π * xx / n`, `sign = -1` for the forward and `+1`
for the inverse transform, and over the reals this value is `exp (i * sign * π * x ^ 2 / n)`:
the reduction modulo `2 n` does not change the chirp. -/
theorem bluestein_twiddle_correct (n x : Nat) (inverse : Bool) (hn : 1 ≤ n)
    (hx32 : x < 2 ^ 32) :
    x * x < 2 ^ 64 ∧
    bluestein_twiddle_xx n x = x * x % (2 * n) ∧
    bluestein_twiddle_item ⟨Real.pi, Real.cos, Real.sin⟩ inverse x n =
      ⟨[], [(x,
        ⟨Real.cos
          ((if inverse then 1 else -1) * Real.pi * ((x * x % (2 * n) : Nat) : ℝ) / (n : ℝ)),
         Real.sin
          ((if inverse then 1 else -1) * Real.pi * ((x * x % (2 * n) : Nat) : ℝ) / (n : ℝ))⟩)]⟩ ∧
    to_complex
        ⟨Real.cos
          ((if inverse then 1 else -1) * Real.pi * ((x * x % (2 * n) : Nat) : ℝ) / (n : ℝ)),
         Real.sin
          ((if inverse then 1 else -1) * Real.pi * ((x * x % (2 * n) : Nat) : ℝ) / (n : ℝ))⟩ =
      Complex.exp (Complex.I *
        (((if inverse then 1 else -1) * Real.pi * (x : ℝ) ^ 2 / (n : ℝ) : ℝ) : ℂ)) := by
  have hlt : x * x < 2 ^ 64 := by
    calc x * x < 2 ^ 32 * 2 ^ 32 := Nat.mul_lt_mul_of_lt_of_lt hx32 hx32
      _ = 2 ^ 64 := by norm_num
  have hxx : bluestein_twiddle_xx n x = x * x % (2 * n) := by
    unfold bluestein_twiddle_xx
    rw [Nat.mod_eq_of_lt hlt]
  refine ⟨hlt, hxx, ?_, ?_⟩
  · simp only [bluestein_twiddle_item, hxx, twiddle, bluestein_sign_pi]
  · have hsq : (x : ℝ) ^ 2 = ((x * x : Nat) : ℝ) := by push_cast; ring
    have hturn : ∀ q : Nat, ((if inverse then 1 else -1 : ℝ)) * (q : ℝ) =
        (((if inverse then 1 else -1 : Int) * (q : Int) : Int) : ℝ) := by
      intro q
      cases inverse <;> simp
    rw [hsq, chirp_angle_split _ n x hn, hturn, mul_comm Complex.I, Complex.exp_mul_I,
      ← Complex.ofReal_cos, ← Complex.ofReal_sin, (cos_sin_add_turns _ _).1,
      (cos_sin_add_turns _ _).2]
    apply Complex.ext <;> simp [to_complex, -Complex.ofReal_cos, -Complex.ofReal_sin]

theorem bluestein_twiddle_correct_witness :
    1 ≤ 5 ∧ 3 < 2 ^ 32 ∧ 3 * 3 < 2 ^ 64 ∧ bluestein_twiddle_xx 5 3 = 3 * 3 % (2 * 5) :=
  ⟨by decide, by decide,
    (bluestein_twiddle_correct 5 3 false (by decide) (by decide)).1,
    (bluestein_twiddle_correct 5 3 false (by decide) (by decide)).2.1⟩

/-! ## Bluestein: symmetry of the chirp -/

/-- The integer formula `chirp` is what the kernel `bluestein_twiddle` stores at an index
below `2 ^ 32`. -/
theorem bluestein_twiddle_item_chirp {R : Type} [Field R] (M : math_fns R) (inverse : Bool)
    (n x : Nat) (hx32 : x < 2 ^ 32) :
    bluestein_twiddle_item M inverse x n = ⟨[], [(x, chirp M inverse n (x : Int))]⟩ := by
  have hlt : x * x < 2 ^ 64 := by
    calc x * x < 2 ^ 32 * 2 ^ 32 := Nat.mul_lt_mul_of_lt_of_lt hx32 hx32
      _ = 2 ^ 64 := by norm_num
  have hcast : ((x : Int) * (x : Int) % (2 * (n : Int))) = ((x * x % (2 * n) : Nat) : Int) := by
    push_cast
    rfl
  simp only [bluestein_twiddle_item, bluestein_twiddle_xx, chirp, Nat.mod_eq_of_lt hlt, hcast,
    Int.cast_natCast]

theorem neg_emod_sq (x m : Int) : (-x % m) * (-x % m) % m = x * x % m := by
  rw [← Int.mul_emod, neg_mul_neg]

theorem chirp_neg_index {R : Type} [Field R] (M : math_fns R) (inverse : Bool) (n : Nat)
    (x : Int) : chirp M inverse n (-x % (2 * (n : Int))) = chirp M inverse n x := by
  unfold chirp
  rw [neg_emod_sq]

theorem chirp_flip_sign (inverse : Bool) (n : Nat) (x : Int) :
    chirp ⟨Real.pi, Real.cos, Real.sin⟩ (!inverse) n x =
      conj (chirp ⟨Real.pi, Real.cos, Real.sin⟩ inverse n x) := by
  cases inverse
  · simp only [chirp, twiddle, conj, bluestein_sign_pi, Bool.not_false, if_true,
      Bool.false_eq_true, if_false, real2_t.mk.injEq]
    constructor
    · rw [← Real.cos_neg]; congr 1; ring
    · rw [← Real.sin_neg]; congr 1; ring
  · simp only [chirp, twiddle, conj, bluestein_sign_pi, Bool.not_true, if_true,
      Bool.false_eq_true, if_false, real2_t.mk.injEq]
    constructor
    · rw [← Real.cos_neg]; congr 1; ring
    · rw [← Real.sin_neg]; congr 1; ring

/-- C9, as the code has it: for every `n` and every integer `x`, the chirp of the table formula
is even, `chirp(x) = chirp((-x) mod 2n)`, with no conjugation; conjugation relates the forward
and the inverse table, `chirp_fwd(x) = conj(chirp_inv((-x) mod 2n))` and the other way round. -/
theorem chirp_symmetry (inverse : Bool) (n : Nat) (x : Int) :
    chirp ⟨Real.pi, Real.cos, Real.sin⟩ inverse n x =
      chirp ⟨Real.pi, Real.cos, Real.sin⟩ inverse n (-x % (2 * (n : Int))) ∧
    chirp ⟨Real.pi, Real.cos, Real.sin⟩ (!inverse) n x =
      conj (chirp ⟨Real.pi, Real.cos, Real.sin⟩ inverse n (-x % (2 * (n : Int)))) := by
  constructor
  · rw [chirp_neg_index]
  · rw [chirp_neg_index, chirp_flip_sign]

/-- C9, as stated, fails: for `n = 2` and `x = 1` the forward chirp is `(0, -1)` at `x` and at
`(-x) mod 2n = 3`, and `(0, -1)` is not its own conjugate. -/
theorem chirp_conjugate_counterexample :
    ¬ (chirp ⟨Real.pi, Real.cos, Real.sin⟩ false 2 1 =
      conj (chirp ⟨Real.pi, Real.cos, Real.sin⟩ false 2 (-1 % (2 * ((2 : Nat) : Int))))) := by
  intro h
  rw [chirp_neg_index] at h
  have hy := congrArg real2_t.y h
  have harg : bluestein_sign_pi (⟨Real.pi, Real.cos, Real.sin⟩ : math_fns ℝ) false *
      (((1 * 1 % (2 * ((2 : Nat) : Int)) : Int)) : ℝ) / ((2 : Nat) : ℝ) = -(Real.pi / 2) := by
    have h1 : ((1 : Int) * 1 % (2 * ((2 : Nat) : Int))) = 1 := by decide
    rw [h1]
    simp only [bluestein_sign_pi, Bool.false_eq_true, if_false]
    push_cast
    ring
  simp only [chirp, twiddle, conj] at hy
  rw [harg, Real.sin_neg, Real.sin_pi_div_two] at hy
  norm_num at hy

/-! ## Bluestein: pad and conjugate -/

theorem bluestein_pad_item_writes {R : Type} [Neg R] [Zero R] (input : Nat → real2_t R)
    (n m g : Nat) :
    (bluestein_pad_item input n m g).writes =
      [(g, if g < n ∨ m - g < n then conj (input (min g (m - g))) else ⟨0, 0⟩)] := by
  unfold bluestein_pad_item
  by_cases h : g < n ∨ m - g < n
  · simp only [if_pos h]
  · simp only [if_neg h]

theorem bluestein_pad_run_apply {R : Type} [Neg R] [Zero R] (input output : Nat → real2_t R)
    (n m x : Nat) (hx : x < m) :
    bluestein_pad_run input output n m x =
      if x < n ∨ m - x < n then conj (input (min x (m - x))) else ⟨0, 0⟩ := by
  unfold bluestein_pad_run
  apply commit_of_mem
  · simp only [List.mem_flatMap, List.mem_range, bluestein_pad_item_writes,
      List.mem_singleton]
    exact ⟨x, hx, rfl⟩
  · intro w hw hk
    simp only [List.mem_flatMap, List.mem_range, bluestein_pad_item_writes,
      List.mem_singleton] at hw
    obtain ⟨g, _, rfl⟩ := hw
    simp only at hk
    subst hk
    rfl

/-- C10, as the code has it: for every `n`, every padded length `m ≥ 2n - 1` and every
`x < m`, `bluestein_pad_kernel` stores `output[x] = conj(input[x])` when `x < n`,
`output[x] = conj(input[m - x])` when `m - x < n`, and `output[x] = (0, 0)` for every other
`x`: the head is conjugated like the mirrored tail. -/
theorem bluestein_pad_correct {R : Type} [Neg R] [Zero R] (input output : Nat → real2_t R)
    (n m x : Nat) (hm : 2 * n - 1 ≤ m) (hx : x < m) :
    (x < n → bluestein_pad_run input output n m x = conj (input x)) ∧
    (m - x < n → bluestein_pad_run input output n m x = conj (input (m - x))) ∧
    (¬ x < n → ¬ m - x < n → bluestein_pad_run input output n m x = ⟨0, 0⟩) := by
  rw [bluestein_pad_run_apply input output n m x hx]
  refine ⟨?_, ?_, ?_⟩
  · intro h
    rw [if_pos (Or.inl h), Nat.min_eq_left (by omega)]
  · intro h
    rw [if_pos (Or.inr h), Nat.min_eq_right (by omega)]
  · intro h1 h2
    rw [if_neg (by omega)]

theorem bluestein_pad_correct_witness :
    2 * 2 - 1 ≤ 4 ∧ 1 < 4 ∧
    bluestein_pad_run (R := ℤ) (fun i => ⟨i, 1⟩) (fun _ => ⟨9, 9⟩) 2 4 1 =
      conj ((fun i : Nat => (⟨i, 1⟩ : real2_t ℤ)) 1) :=
  ⟨by decide, by decide,
    (bluestein_pad_correct (R := ℤ) (fun i => ⟨i, 1⟩) (fun _ => ⟨9, 9⟩) 2 4 1 (by decide)
      (by decide)).1 (by decide)⟩

/-- C10, as stated, fails: with `n = 2`, `m = 4` and `input[1] = (1, 1)` the kernel stores
`output[1] = (1, -1)`, the conjugate, not `input[1]`. -/
theorem bluestein_pad_head_counterexample :
    bluestein_pad_run (R := ℤ) (fun i => ⟨i, 1⟩) (fun _ => ⟨9, 9⟩) 2 4 1 = ⟨1, -1⟩ ∧
    bluestein_pad_run (R := ℤ) (fun i => ⟨i, 1⟩) (fun _ => ⟨9, 9⟩) 2 4 1 ≠
      (fun i : Nat => (⟨i, 1⟩ : real2_t ℤ)) 1 := by
  constructor <;> decide

/-! ## Transpose: block-size search -/

theorem shrink_to_local_mem_pow (sizeof_T local_size : Nat)
    (h1 : 1 * 1 * sizeof_T * 2 ≤ local_size) (k : Nat) :
    ∃ j, j ≤ k ∧ shrink_to_local_mem sizeof_T local_size (2 ^ k) = 2 ^ j ∧
      2 ^ j * 2 ^ j * sizeof_T * 2 ≤ local_size ∧
      ∀ i, j < i → i ≤ k → 2 ^ i * 2 ^ i * sizeof_T * 2 > local_size := by
  induction k with
  | zero =>
    refine ⟨0, Nat.le_refl 0, ?_, h1, fun i hi hi2 => by omega⟩
    rw [shrink_to_local_mem, if_neg (by simp only [Nat.pow_zero]; omega)]
  | succ k ih =>
    by_cases hbad : 2 ^ (k + 1) * 2 ^ (k + 1) * sizeof_T * 2 > local_size
    · obtain ⟨j, hj, hres, hfit, hmax⟩ := ih
      refine ⟨j, Nat.le_succ_of_le hj, ?_, hfit, ?_⟩
      · rw [shrink_to_local_mem, if_pos hbad]
        have hhalf : 2 ^ (k + 1) / 2 = 2 ^ k := by
          rw [Nat.pow_succ, Nat.mul_div_cancel _ (by decide : 0 < 2)]
        rw [hhalf, hres]
      · intro i hi hi2
        rcases Nat.eq_or_lt_of_le hi2 with e | e
        · rw [e]; exact hbad
        · exact hmax i hi (Nat.le_of_lt_succ e)
    · refine ⟨k + 1, Nat.le_refl _, ?_, Nat.le_of_not_gt hbad, fun i hi hi2 => by omega⟩
      rw [shrink_to_local_mem, if_neg hbad]

theorem shrink_to_workgroup_pow (workgroup : Nat) (h1 : 1 * 1 ≤ workgroup) (k : Nat) :
    ∃ j, j ≤ k ∧ shrink_to_workgroup workgroup (2 ^ k) = 2 ^ j ∧
      2 ^ j * 2 ^ j ≤ workgroup ∧
      ∀ i, j < i → i ≤ k → 2 ^ i * 2 ^ i > workgroup := by
  induction k with
  | zero =>
    refine ⟨0, Nat.le_refl 0, ?_, h1, fun i hi hi2 => by omega⟩
    rw [shrink_to_workgroup, if_neg (by simp only [Nat.pow_zero]; omega)]
  | succ k ih =>
    by_cases hbad : 2 ^ (k + 1) * 2 ^ (k + 1) > workgroup
    · obtain ⟨j, hj, hres, hfit, hmax⟩ := ih
      refine ⟨j, Nat.le_succ_of_le hj, ?_, hfit, ?_⟩
      · rw [shrink_to_workgroup, if_pos hbad]
        have hhalf : 2 ^ (k + 1) / 2 = 2 ^ k := by
          rw [Nat.pow_succ, Nat.mul_div_cancel _ (by decide : 0 < 2)]
        rw [hhalf, hres]
      · intro i hi hi2
        rcases Nat.eq_or_lt_of_le hi2 with e | e
        · rw [e]; exact hbad
        · exact hmax i hi (Nat.le_of_lt_succ e)
    · refine ⟨k + 1, Nat.le_refl _, ?_, Nat.le_of_not_gt hbad, fun i hi hi2 => by omega⟩
      rw [shrink_to_workgroup, if_neg hbad]

/-- C11: for a device with local memory size `local_size ≥ 2 * sizeof(T)` and maximal
work-group size `workgroup ≥ 1`, the block-size search of `transpose_kernel` ends with the
largest fitting block size: the result `bs` is a power of two with `1 ≤ bs ≤ 128`,
`bs * bs * 2 * sizeof(T) ≤ local_size` and `bs * bs ≤ workgroup`, and no larger power of two
up to `128` meets both bounds. -/
theorem transpose_block_size_maximal (sizeof_T local_size workgroup : Nat)
    (hL : 2 * sizeof_T ≤ local_size) (hW : 1 ≤ workgroup) :
    (∃ j, transpose_block_size sizeof_T local_size workgroup = 2 ^ j) ∧
    1 ≤ transpose_block_size sizeof_T local_size workgroup ∧
    transpose_block_size sizeof_T local_size workgroup ≤ 128 ∧
    transpose_block_size sizeof_T local_size workgroup *
      transpose_block_size sizeof_T local_size workgroup * 2 * sizeof_T ≤ local_size ∧
    transpose_block_size sizeof_T local_size workgroup *
      transpose_block_size sizeof_T local_size workgroup ≤ workgroup ∧
    ∀ i, transpose_block_size sizeof_T local_size workgroup < 2 ^ i → 2 ^ i ≤ 128 →
      ¬ (2 ^ i * 2 ^ i * 2 * sizeof_T ≤ local_size ∧ 2 ^ i * 2 ^ i ≤ workgroup) := by
  obtain ⟨j1, hj1, hres1, hfit1, hmax1⟩ :=
    shrink_to_local_mem_pow sizeof_T local_size (by omega) 7
  obtain ⟨j2, hj2, hres2, hfit2, hmax2⟩ := shrink_to_workgroup_pow workgroup (by omega) j1
  have hbs : transpose_block_size sizeof_T local_size workgroup = 2 ^ j2 := by
    unfold transpose_block_size
    rw [show (128 : Nat) = 2 ^ 7 from rfl, hres1, hres2]
  have hle21 : 2 ^ j2 ≤ 2 ^ j1 := Nat.pow_le_pow_right (by decide) hj2
  have hle17 : 2 ^ j1 ≤ 2 ^ 7 := Nat.pow_le_pow_right (by decide) hj1
  rw [hbs]
  refine ⟨⟨j2, rfl⟩, Nat.one_le_two_pow, Nat.le_trans hle21 hle17, ?_, hfit2, ?_⟩
  · calc 2 ^ j2 * 2 ^ j2 * 2 * sizeof_T = 2 ^ j2 * 2 ^ j2 * sizeof_T * 2 := by ring
      _ ≤ 2 ^ j1 * 2 ^ j1 * sizeof_T * 2 :=
        Nat.mul_le_mul_right 2 (Nat.mul_le_mul_right sizeof_T (Nat.mul_le_mul hle21 hle21))
      _ ≤ local_size := hfit1
  · intro i hlt hle hboth
    have hi2 : j2 < i := (Nat.pow_lt_pow_iff_right (by decide : 1 < 2)).1 hlt
    have hi7 : i ≤ 7 := (Nat.pow_le_pow_iff_right (by decide : 1 < 2)).1 hle
    by_cases hi1 : i ≤ j1
    · exact absurd hboth.2 (Nat.not_le.2 (hmax2 i hi2 hi1))
    · have hbad := hmax1 i (Nat.lt_of_not_le hi1) hi7
      have heq : 2 ^ i * 2 ^ i * 2 * sizeof_T = 2 ^ i * 2 ^ i * sizeof_T * 2 := by ring
      rw [heq] at hboth
      exact absurd hboth.1 (Nat.not_le.2 hbad)

theorem transpose_block_size_maximal_witness :
    2 * 4 ≤ 32768 ∧ 1 ≤ 256 ∧ transpose_block_size 4 32768 256 ≤ 128 ∧
    transpose_block_size 4 32768 256 * transpose_block_size 4 32768 256 ≤ 256 :=
  ⟨by decide, by decide,
    (transpose_block_size_maximal 4 32768 256 (by decide) (by decide)).2.2.1,
    (transpose_block_size_maximal 4 32768 256 (by decide) (by decide)).2.2.2.2.1⟩

/-! ## Radix stage: the scatter is a bijection -/

theorem radix_write_offset_eq (radix : pow) (p i l : Nat)
    (hb : (radix.value - 1) * p < 2 ^ 32) (hl : l < radix.value) :
    radix_write_offset radix p i l = i % p + (i / p * radix.value + l) * p := by
  unfold radix_write_offset
  rw [literal_mul_uint_of_bound radix.value p l hb hl]
  have h : i - i % p = i / p * p := by
    have := Nat.div_add_mod i p
    rw [Nat.mul_comm] at this
    omega
  rw [h]
  ring

theorem radix_write_offset_lt (radix : pow) (p m i l : Nat)
    (hb : (radix.value - 1) * p < 2 ^ 32) (hdvd : p ∣ m) (hi : i < m)
    (hl : l < radix.value) : radix_write_offset radix p i l < m * radix.value := by
  obtain ⟨c, rfl⟩ := hdvd
  have hp : 0 < p := by
    rcases Nat.eq_zero_or_pos p with h0 | h0
    · subst h0; simp at hi
    · exact h0
  rw [radix_write_offset_eq radix p i l hb hl]
  have hq : i / p < c := (Nat.div_lt_iff_lt_mul hp).2 (by rw [Nat.mul_comm]; exact hi)
  have hk : i % p < p := Nat.mod_lt i hp
  have ht : i / p * radix.value + l + 1 ≤ c * radix.value := by
    calc i / p * radix.value + l + 1 ≤ i / p * radix.value + radix.value := by omega
      _ = (i / p + 1) * radix.value := by ring
      _ ≤ c * radix.value := Nat.mul_le_mul_right _ hq
  calc i % p + (i / p * radix.value + l) * p < p + (i / p * radix.value + l) * p := by omega
    _ = (i / p * radix.value + l + 1) * p := by ring
    _ ≤ c * radix.value * p := Nat.mul_le_mul_right _ ht
    _ = p * c * radix.value := by ring

theorem radix_write_offset_inj (radix : pow) (p m i l i2 l2 : Nat)
    (hb : (radix.value - 1) * p < 2 ^ 32) (hdvd : p ∣ m)
    (hi : i < m) (hl : l < radix.value) (hl2 : l2 < radix.value)
    (h : radix_write_offset radix p i l = radix_write_offset radix p i2 l2) :
    i = i2 ∧ l = l2 := by
  have hp : 0 < p := by
    rcases Nat.eq_zero_or_pos p with h0 | h0
    · subst h0; obtain ⟨c, rfl⟩ := hdvd; simp at hi
    · exact h0
  rw [radix_write_offset_eq radix p i l hb hl, radix_write_offset_eq radix p i2 l2 hb hl2] at h
  obtain ⟨hk, ht⟩ := pair_index_inj p (i % p) (i2 % p) _ _ (Nat.mod_lt i hp)
    (Nat.mod_lt i2 hp) h
  have ht2 : l + i / p * radix.value = l2 + i2 / p * radix.value := by omega
  obtain ⟨el, eq⟩ := pair_index_inj radix.value l l2 _ _ hl hl2 ht2
  refine ⟨?_, el⟩
  have e1 := Nat.div_add_mod i p
  have e2 := Nat.div_add_mod i2 p
  rw [← e1, ← e2, hk, eq]

theorem radix_write_offset_surj (radix : pow) (p m pos : Nat)
    (hb : (radix.value - 1) * p < 2 ^ 32) (hdvd : p ∣ m)
    (hpos : pos < m * radix.value) :
    ∃ i l, i < m ∧ l < radix.value ∧ radix_write_offset radix p i l = pos := by
  obtain ⟨c, rfl⟩ := hdvd
  have hp : 0 < p := by
    rcases Nat.eq_zero_or_pos p with h0 | h0
    · subst h0; simp at hpos
    · exact h0
  have hR : 0 < radix.value := by
    rcases Nat.eq_zero_or_pos radix.value with h0 | h0
    · rw [h0] at hpos; simp at hpos
    · exact h0
  have ht : pos / p < c * radix.value :=
    (Nat.div_lt_iff_lt_mul hp).2 (by
      calc pos < p * c * radix.value := hpos
        _ = c * radix.value * p := by ring)
  have hq : pos / p / radix.value < c := (Nat.div_lt_iff_lt_mul hR).2 ht
  have hk : pos % p < p := Nat.mod_lt pos hp
  refine ⟨pos % p + pos / p / radix.value * p, pos / p % radix.value, ?_, Nat.mod_lt _ hR, ?_⟩
  · calc pos % p + pos / p / radix.value * p < p + pos / p / radix.value * p := by omega
      _ = (pos / p / radix.value + 1) * p := by ring
      _ ≤ c * p := Nat.mul_le_mul_right _ hq
      _ = p * c := Nat.mul_comm c p
  · rw [radix_write_offset_eq radix p _ _ hb (Nat.mod_lt _ hR), Nat.add_mul_mod_self_right,
      Nat.mod_mod,
      Nat.add_mul_div_right _ _ hp, Nat.div_eq_of_lt hk, Nat.zero_add]
    have e1 := Nat.div_add_mod (pos / p) radix.value
    have e2 := Nat.div_add_mod pos p
    rw [Nat.mul_comm] at e1
    rw [e1]
    rw [Nat.mul_comm] at e2
    omega

theorem mem_kernel_radix_positions {R : Type} [Field R] (M : math_fns R)
    (in_place_dft : (N : Nat) → Bool → (Fin N → real2_t R) → Fin N → real2_t R)
    (radix : pow) (invert : Bool) (x : Nat → real2_t R) (p threads i b pos : Nat) :
    pos ∈ (kernel_radix M in_place_dft radix invert x p threads i b).writes.map Prod.fst ↔
      i < threads ∧ ∃ l, l < radix.value ∧
        pos = b * threads * radix.value + radix_write_offset radix p i l := by
  by_cases hi : i < threads
  · rw [kernel_radix_writes M in_place_dft radix invert x p threads i b hi, List.map_map]
    simp only [List.mem_map, Function.comp_apply, radix_write_offset]
    constructor
    · rintro ⟨l, _, rfl⟩
      exact ⟨hi, l.val, l.isLt, by omega⟩
    · rintro ⟨_, l, hl, rfl⟩
      exact ⟨⟨l, hl⟩, List.mem_finRange _, by simp only []; omega⟩
  · rw [kernel_radix_idle M in_place_dft radix invert x p threads i b (Nat.le_of_not_lt hi)]
    simp [hi]

/-- Within one batch the stores of a launch hit every position of the batch exactly once. -/
theorem radix_batch_positions_perm {R : Type} [Field R] (M : math_fns R)
    (in_place_dft : (N : Nat) → Bool → (Fin N → real2_t R) → Fin N → real2_t R)
    (radix : pow) (invert : Bool) (x : Nat → real2_t R) (p m b global_0 : Nat)
    (hb : (radix.value - 1) * p < 2 ^ 32) (hdvd : p ∣ m) (hg : m ≤ global_0) :
    List.Perm
      ((List.range global_0).flatMap fun i =>
        (kernel_radix M in_place_dft radix invert x p m i b).writes.map Prod.fst)
      ((List.range (m * radix.value)).map fun t => b * m * radix.value + t) := by
  apply (List.perm_ext_iff_of_nodup ?_ ?_).2
  · intro pos
    rw [List.mem_flatMap, List.mem_map]
    constructor
    · rintro ⟨i, _, hpos⟩
      rw [mem_kernel_radix_positions] at hpos
      obtain ⟨hi, l, hl, rfl⟩ := hpos
      exact ⟨radix_write_offset radix p i l,
        List.mem_range.2 (radix_write_offset_lt radix p m i l hb hdvd hi hl), rfl⟩
    · rintro ⟨t, ht, rfl⟩
      obtain ⟨i, l, hi, hl, rfl⟩ :=
        radix_write_offset_surj radix p m t hb hdvd (List.mem_range.1 ht)
      exact ⟨i, List.mem_range.2 (Nat.lt_of_lt_of_le hi hg),
        (mem_kernel_radix_positions M in_place_dft radix invert x p m i b _).2
          ⟨hi, l, hl, rfl⟩⟩
  · rw [List.nodup_flatMap]
    constructor
    · intro i _
      by_cases hi : i < m
      · rw [kernel_radix_writes M in_place_dft radix invert x p m i b hi, List.map_map]
        refine (List.nodup_finRange radix.value).map_on ?_
        intro l _ l2 _ h
        have h2 : radix_write_offset radix p i l.val = radix_write_offset radix p i l2.val := by
          simp only [Function.comp_apply] at h
          unfold radix_write_offset
          omega
        exact Fin.ext (radix_write_offset_inj radix p m i l.val i l2.val hb hdvd hi l.isLt
          l2.isLt h2).2
      · rw [kernel_radix_idle M in_place_dft radix invert x p m i b (Nat.le_of_not_lt hi)]
        exact List.nodup_nil
    · refine (List.nodup_range global_0).pairwise_of_forall_ne ?_
      intro i _ i2 _ hne pos h1 h2
      rw [mem_kernel_radix_positions] at h1 h2
      obtain ⟨hi, l, hl, rfl⟩ := h1
      obtain ⟨_, l2, hl2, h⟩ := h2
      exact hne (radix_write_offset_inj radix p m i l i2 l2 hb hdvd hi hl hl2 (by omega)).1
  · refine (List.nodup_range _).map (fun a a2 h => ?_)
    have h2 : b * m * radix.value + a = b * m * radix.value + a2 := h
    omega

theorem kernel_radix_positions {R : Type} [Field R] (M : math_fns R)
    (in_place_dft : (N : Nat) → Bool → (Fin N → real2_t R) → Fin N → real2_t R)
    (radix : pow) (invert : Bool) (x : Nat → real2_t R) (p threads i b : Nat)
    (hi : i < threads) :
    (kernel_radix M in_place_dft radix invert x p threads i b).writes.map Prod.fst =
      (List.range radix.value).map fun l =>
        b * threads * radix.value + radix_write_offset radix p i l := by
  rw [kernel_radix_writes M in_place_dft radix invert x p threads i b hi,
    ← List.map_coe_finRange, List.map_map, List.map_map]
  apply List.map_congr_left
  intro l _
  simp only [Function.comp_apply, radix_write_offset]
  omega

/-- C12, as the code has it: in the kernel `radix` with `p` dividing the thread count `m` and
`(radix.value - 1) * p < 2 ^ 32`, so that no 32-bit product `l * p` wraps, the write offset of
work-item `i` and result `l` is `i mod p + (i - i mod p) * radix.value + l * p`, and the map
sending `i < m` and `l < radix.value` to it is a bijection onto `[0, m * radix.value)`;
work-item `i` of batch `b` stores at these offsets shifted by `b * m * radix.value`, a launch
stores to every position of a batch exactly once, and work-items `i ≥ m` store nothing. -/
theorem radix_scatter_bijective {R : Type} [Field R] (M : math_fns R)
    (in_place_dft : (N : Nat) → Bool → (Fin N → real2_t R) → Fin N → real2_t R)
    (radix : pow) (invert : Bool) (x : Nat → real2_t R) (p m : Nat) (hdvd : p ∣ m)
    (hb : (radix.value - 1) * p < 2 ^ 32) :
    (∀ i l : Nat, l < radix.value →
      radix_write_offset radix p i l = i % p + (i - i % p) * radix.value + l * p) ∧
    Set.BijOn (fun q : Nat × Nat => radix_write_offset radix p q.1 q.2)
      {q | q.1 < m ∧ q.2 < radix.value} {t | t < m * radix.value} ∧
    (∀ i b : Nat, i < m →
      (kernel_radix M in_place_dft radix invert x p m i b).writes.map Prod.fst =
        (List.range radix.value).map fun l =>
          b * m * radix.value + radix_write_offset radix p i l) ∧
    (∀ b global_0 : Nat, m ≤ global_0 →
      List.Perm
        ((List.range global_0).flatMap fun i =>
          (kernel_radix M in_place_dft radix invert x p m i b).writes.map Prod.fst)
        ((List.range (m * radix.value)).map fun t => b * m * radix.value + t)) ∧
    (∀ i b : Nat, m ≤ i →
      kernel_radix M in_place_dft radix invert x p m i b = ⟨[], []⟩) := by
  refine ⟨?_, ⟨?_, ?_, ?_⟩, ?_, ?_, ?_⟩
  · intro i l hl
    unfold radix_write_offset
    rw [literal_mul_uint_of_bound radix.value p l hb hl]
  · intro q hq
    exact radix_write_offset_lt radix p m q.1 q.2 hb hdvd hq.1 hq.2
  · intro q hq q2 hq2 h
    obtain ⟨e1, e2⟩ :=
      radix_write_offset_inj radix p m q.1 q.2 q2.1 q2.2 hb hdvd hq.1 hq.2 hq2.2 h
    exact Prod.ext e1 e2
  · intro t ht
    obtain ⟨i, l, hi, hl, e⟩ := radix_write_offset_surj radix p m t hb hdvd ht
    exact ⟨(i, l), ⟨hi, hl⟩, e⟩
  · intro i b hi
    exact kernel_radix_positions M in_place_dft radix invert x p m i b hi
  · intro b global_0 hg
    exact radix_batch_positions_perm M in_place_dft radix invert x p m b global_0 hb hdvd hg
  · intro i b hi
    exact kernel_radix_idle M in_place_dft radix invert x p m i b hi

theorem radix_scatter_bijective_witness :
    2 ∣ 4 ∧ ((pow.mk 2 1 2).value - 1) * 2 < 2 ^ 32 ∧
    List.Perm
      ((List.range 32).flatMap fun i =>
        (kernel_radix (R := ℚ) ⟨3, fun a => a, fun a => a⟩ (fun _ _ v => v) ⟨2, 1, 2⟩ false
          (fun i => ⟨i, 0⟩) 2 4 i 1).writes.map Prod.fst)
      ((List.range (4 * (pow.mk 2 1 2).value)).map fun t =>
        1 * 4 * (pow.mk 2 1 2).value + t) :=
  ⟨by decide, by decide,
    (radix_scatter_bijective (R := ℚ) ⟨3, fun a => a, fun a => a⟩ (fun _ _ v => v) ⟨2, 1, 2⟩
      false (fun i => ⟨i, 0⟩) 2 4 (by decide) (by decide)).2.2.2.1 1 32 (by decide)⟩

/-- C12, as stated, fails: with `radix.value = 3` and `p = m = 2 ^ 31` (so `p` divides `m`) the
32-bit product `2 * p` wraps to `0`, work-item `1` stores its results `0` and `2` both at
position `1`, and the stores of the launch are not a rearrangement of the batch range. -/
theorem radix_scatter_wrap_counterexample :
    2 ^ 31 ∣ 2 ^ 31 ∧
    (kernel_radix (R := ℚ) ⟨3, fun a => a, fun a => a⟩ (fun _ _ v => v) ⟨3, 1, 3⟩ false
        (fun i => ⟨i, 0⟩) (2 ^ 31) (2 ^ 31) 1 0).writes.map Prod.fst =
      [1, 2 ^ 31 + 1, 1] ∧
    ¬ List.Perm
      ((List.range (2 ^ 31)).flatMap fun i =>
        (kernel_radix (R := ℚ) ⟨3, fun a => a, fun a => a⟩ (fun _ _ v => v) ⟨3, 1, 3⟩ false
          (fun i => ⟨i, 0⟩) (2 ^ 31) (2 ^ 31) i 0).writes.map Prod.fst)
      ((List.range (2 ^ 31 * 3)).map fun t => 0 * 2 ^ 31 * 3 + t) := by
  have h : (kernel_radix (R := ℚ) ⟨3, fun a => a, fun a => a⟩ (fun _ _ v => v) ⟨3, 1, 3⟩
      false (fun i => ⟨i, 0⟩) (2 ^ 31) (2 ^ 31) 1 0).writes.map Prod.fst =
      [1, 2 ^ 31 + 1, 1] := by
    rw [kernel_radix_writes _ _ _ _ _ _ _ _ _ (by decide), List.map_map]
    decide
  refine ⟨Nat.dvd_refl _, h, ?_⟩
  intro hperm
  have hnd : ((List.range (2 ^ 31 * 3)).map fun t => 0 * 2 ^ 31 * 3 + t).Nodup := by
    refine (List.nodup_range _).map (fun a a2 e => ?_)
    have e2 : 0 * 2 ^ 31 * 3 + a = 0 * 2 ^ 31 * 3 + a2 := e
    omega
  have hall := (List.nodup_flatMap.1 (hperm.nodup_iff.2 hnd)).1 1
    (List.mem_range.2 (by decide))
  rw [h] at hall
  simp at hall

end fft
end vex
